import Mathlib

/-!
Verification of the core logic of `magic_quickstart` (src/parsers.rs, src/main.rs):
the zsh-history line parser, the reverse-scan window selector, the project-file
detector/sampler, and the dotenv key extractor.

Modelling conventions:
* Rust `&str` values are modelled as `List Char`; `String::trim` is modelled over
  ASCII whitespace (the whitespace characters occurring in history/env files).
* Rust `i64` arithmetic is modelled over unbounded `Int`, with the `i64` range
  checked explicitly where the source checks it (`str::parse::<i64>`), and
  debug-mode overflow semantics (an overflowing subtraction panics; in the scan
  this is absorbed by the chrono `Duration::seconds` bound, see `chronoMaxSecs`).
* Functions that can panic are modelled with `Option`: `none` is a panic/abort.
* Filesystem state is passed explicitly (directory listings as lists of entries).
-/

namespace MagicQuickstart

/-- Convert a string literal to the `List Char` representation used throughout. -/
def s2l (s : String) : List Char := s.data

/-- Split a character list at the first occurrence of `sep`:
`some (before, after)` when `sep` occurs (Rust `str::split_once`), else `none`. -/
def splitFirst (sep : Char) : List Char → Option (List Char × List Char)
  | [] => none
  | c :: rest =>
    if c = sep then some ([], rest)
    else (splitFirst sep rest).map (fun p => (c :: p.1, p.2))

/-- Rust `str::splitn(n, sep)`: at most `n` pieces, the last piece keeps the
remaining separators. -/
def splitn (sep : Char) : Nat → List Char → List (List Char)
  | 0, _ => []
  | 1, s => [s]
  | n + 2, s =>
    match splitFirst sep s with
    | none => [s]
    | some (a, b) => a :: splitn sep (n + 1) b

/-- Rust `str::trim` (ASCII whitespace). -/
def trim (l : List Char) : List Char :=
  ((l.dropWhile Char.isWhitespace).reverse.dropWhile Char.isWhitespace).reverse

/-- Value of a non-empty all-digit character list, `none` otherwise. -/
def digitsVal (l : List Char) : Option Nat :=
  if l.isEmpty then none
  else if l.all Char.isDigit then
    some (l.foldl (fun a c => a * 10 + (c.toNat - 48)) 0)
  else none

/-- Largest `i64` value. -/
def i64Max : Int := 9223372036854775807

/-- Smallest `i64` value. -/
def i64Min : Int := -9223372036854775808

/-- Rust `str::parse::<i64>`: optional sign, at least one ASCII digit, value in
the `i64` range. -/
def parseI64 (l : List Char) : Option Int :=
  match l with
  | '+' :: rest =>
    (digitsVal rest).bind (fun n => if (n : Int) ≤ i64Max then some (n : Int) else none)
  | '-' :: rest =>
    (digitsVal rest).bind (fun n => if i64Min ≤ -(n : Int) then some (-(n : Int)) else none)
  | _ =>
    (digitsVal l).bind (fun n => if (n : Int) ≤ i64Max then some (n : Int) else none)

/-- `parse_zsh_history` (src/parsers.rs:52-82): reject unless the line starts
with `:`; split into at most 3 pieces on `:`; the middle piece (trimmed) must
parse as an `i64` timestamp; the final piece is split once on `;` into the
exit-code field (trimmed) and the command (trimmed). -/
def parse_zsh_history (entry : List Char) : Option (Int × List Char × List Char) :=
  if entry.head? = some ':' then
    match splitn ':' 3 entry with
    | _ :: p1 :: p2 :: _ =>
      match parseI64 (trim p1) with
      | none => none
      | some t =>
        match splitn ';' 2 p2 with
        | c0 :: c1 :: _ => some (t, trim c0, trim c1)
        | _ => none
    | _ => none
  else none

/-- Reference description of the parser following the specification text: the
line must start with the sentinel `:`; the segment between the first two colons,
trimmed, must parse as a base-10 integer; the rest is split at its first `;`
into the second field and the command, both trimmed. Used only to state the
functional-characterization claim about `parse_zsh_history`. -/
def parse_zsh_spec (entry : List Char) : Option (Int × List Char × List Char) :=
  if entry.head? = some ':' then
    match splitFirst ':' entry.tail with
    | none => none
    | some (tsSeg, afterTs) =>
      match parseI64 (trim tsSeg) with
      | none => none
      | some t =>
        match splitFirst ';' afterTs with
        | none => none
        | some (f, cmd) => some (t, trim f, trim cmd)
  else none

/-- One materialized history record. The JSON object built by the source also
carries `formatted_time` and `relative_time`, both derived deterministically
from `timestamp` (and the fixed scan time `now`); the raw fields modelled here
determine the record. -/
structure CommandRecord where
  timestamp : Int
  exit_code : List Char
  command : List Char
deriving DecidableEq, Repr

/-- Largest number of whole seconds accepted by chrono `Duration::seconds`
(`i64::MAX` milliseconds); a larger argument panics. -/
def chronoMaxSecs : Int := 9223372036854775

/-- `process_zsh_history` (src/parsers.rs:11-49) on the reverse-ordered sequence
of line-decode results, at scan time `now` (`Utc::now().timestamp()`).
`Except.error _` is a line that failed to decode (skipped with a diagnostic);
a line whose parse fails breaks the loop; an accepted in-window line computes
`elapsed = now - timestamp` whose conversion through `Duration::seconds` and
`to_std().unwrap()` panics — modelled as `none` — unless `0 ≤ elapsed ≤
chronoMaxSecs`. -/
def process_zsh_history (now cutoff : Int) :
    List (Except Unit (List Char)) → Option (List CommandRecord)
  | [] => some []
  | (Except.error _) :: rest => process_zsh_history now cutoff rest
  | (Except.ok line) :: rest =>
    match parse_zsh_history line with
    | none => some []
    | some (t, ec, cmd) =>
      if cutoff ≤ t then
        if now - t < 0 ∨ chronoMaxSecs < now - t then none
        else Option.map (fun tl => CommandRecord.mk t ec cmd :: tl)
          (process_zsh_history now cutoff rest)
      else process_zsh_history now cutoff rest

/-- One entry of a directory listing, as seen by `find_source_files`:
`name` is the path pushed into the result (after `strip_prefix` of the working
directory), `ext` is the value of Rust `Path::extension()` for the entry. -/
structure SrcFile where
  name : String
  ext : Option String
deriving DecidableEq, Repr

/-- State of the working directory consumed by `find_project_files`: existence
of the four ecosystem marker files, plus the listings that `fs::read_dir`
returns for `<cwd>/src` and for the working directory itself (`none` models a
missing or unreadable directory). -/
structure Cwd where
  hasCargoToml : Bool
  hasPyprojectToml : Bool
  hasPackageJson : Bool
  hasGoMod : Bool
  srcDir : Option (List SrcFile)
  rootDir : Option (List SrcFile)

/-- Loop body of `find_source_files` (src/parsers.rs:125-135): on a matching
extension the path is pushed first and the `found_files.len() >= max_files`
check runs afterwards. -/
def findSrcLoop (extension : String) (max_files : Nat) :
    List SrcFile → List String → List String
  | [], acc => acc
  | e :: rest, acc =>
    if e.ext = some extension then
      if (acc ++ [e.name]).length ≥ max_files then acc ++ [e.name]
      else findSrcLoop extension max_files rest (acc ++ [e.name])
    else findSrcLoop extension max_files rest acc

/-- `find_source_files` (src/parsers.rs:122-139): collect entries of the given
directory whose extension matches, breaking once the accumulated count reaches
`max_files` (checked after each push); an unreadable directory yields `[]`. -/
def find_source_files (dir : Option (List SrcFile)) (extension : String)
    (max_files : Nat) : List String :=
  match dir with
  | none => []
  | some entries => findSrcLoop extension max_files entries []

/-- `find_project_files` (src/parsers.rs:85-119): for each ecosystem in order
(Rust, Python, Node.js, Go), if its marker file exists push the marker and then
extend with the capped source-file sample(s) for its extension(s); the
sequential pushes are written here as list concatenation. -/
def find_project_files (cwd : Cwd) (max_files : Nat) : List String :=
  (if cwd.hasCargoToml then
    "Cargo.toml" :: find_source_files cwd.srcDir "rs" max_files
  else [])
  ++ (if cwd.hasPyprojectToml then
    "pyproject.toml" :: find_source_files cwd.srcDir "py" max_files
  else [])
  ++ (if cwd.hasPackageJson then
    "package.json" :: (find_source_files cwd.srcDir "js" max_files
      ++ find_source_files cwd.srcDir "ts" max_files)
  else [])
  ++ (if cwd.hasGoMod then
    "go.mod" :: find_source_files cwd.rootDir "go" max_files
  else [])

/-- `get_env_file_keys` (src/parsers.rs:142-154), over the decoded lines of the
file: for each line, `split_once('=')` yields the key (trimmed) when the line
contains `=`; lines without `=` are skipped. -/
def get_env_file_keys : List (List Char) → List (List Char)
  | [] => []
  | line :: rest =>
    match splitFirst '=' line with
    | some (key, _) => trim key :: get_env_file_keys rest
    | none => get_env_file_keys rest

/-- Split a character list on every occurrence of `sep` (always non-empty). -/
def splitOnChar (sep : Char) : List Char → List (List Char)
  | [] => [[]]
  | c :: rest =>
    match splitOnChar sep rest with
    | [] => [[]]
    | h :: t => if c = sep then [] :: h :: t else (c :: h) :: t

/-- Drop one trailing carriage return, as Rust `BufRead::lines` does. -/
def chompCR (l : List Char) : List Char :=
  if l.getLast? = some '\r' then l.dropLast else l

/-- Rust `BufRead::lines` over a decoded file content: split on newline, drop
the final empty piece produced by a trailing newline, strip trailing CRs. -/
def linesOf (content : List Char) : List (List Char) :=
  let ps := splitOnChar '\n' content
  (if ps.getLast? = some [] then ps.dropLast else ps).map chompCR

/-- Record built from parse output `(timestamp, field2, command)`. -/
def toRecord (r : Int × List Char × List Char) : CommandRecord :=
  ⟨r.1, r.2.1, r.2.2⟩

/-- Records that a list of well-formed lines contributes to the scan output:
parse each line, keep those meeting the cutoff, in order. -/
def windowRecords (cutoff : Int) (lines : List (List Char)) : List CommandRecord :=
  ((lines.filterMap parse_zsh_history).filter
    (fun r => decide (cutoff ≤ r.1))).map toRecord

/-- Concrete directory listing with five `.rs` entries, used in witnesses. -/
def ex5 : List SrcFile :=
  [⟨"src/a.rs", some "rs"⟩, ⟨"src/b.rs", some "rs"⟩, ⟨"src/c.rs", some "rs"⟩,
   ⟨"src/d.rs", some "rs"⟩, ⟨"src/e.rs", some "rs"⟩]

/-- Concrete working directory used in witnesses. -/
def exCwd : Cwd :=
  { hasCargoToml := true, hasPyprojectToml := false, hasPackageJson := false,
    hasGoMod := true, srcDir := some ex5, rootDir := some [] }

/-! ### Helper lemmas -/

theorem splitFirst_cons_self (sep : Char) (rest : List Char) :
    splitFirst sep (sep :: rest) = some ([], rest) := by
  simp [splitFirst]

theorem splitn_three (sep : Char) (s : List Char) :
    splitn sep 3 s = match splitFirst sep s with
      | none => [s]
      | some (a, b) => a :: splitn sep 2 b := rfl

theorem splitn_two (sep : Char) (s : List Char) :
    splitn sep 2 s = match splitFirst sep s with
      | none => [s]
      | some (a, b) => [a, b] := rfl

theorem process_nil (now cutoff : Int) :
    process_zsh_history now cutoff [] = some [] := rfl

theorem process_err (now cutoff : Int) (e : Unit)
    (rest : List (Except Unit (List Char))) :
    process_zsh_history now cutoff (Except.error e :: rest)
      = process_zsh_history now cutoff rest := rfl

theorem process_ok_reject (now cutoff : Int) (line : List Char)
    (rest : List (Except Unit (List Char)))
    (h : parse_zsh_history line = none) :
    process_zsh_history now cutoff (Except.ok line :: rest) = some [] := by
  simp [process_zsh_history, h]

theorem process_ok_skip (now cutoff t : Int) (ec cmd line : List Char)
    (rest : List (Except Unit (List Char)))
    (h : parse_zsh_history line = some (t, ec, cmd)) (hcut : ¬ cutoff ≤ t) :
    process_zsh_history now cutoff (Except.ok line :: rest)
      = process_zsh_history now cutoff rest := by
  simp [process_zsh_history, h, hcut]

theorem process_ok_panic (now cutoff t : Int) (ec cmd line : List Char)
    (rest : List (Except Unit (List Char)))
    (h : parse_zsh_history line = some (t, ec, cmd)) (hcut : cutoff ≤ t)
    (hp : now - t < 0 ∨ chronoMaxSecs < now - t) :
    process_zsh_history now cutoff (Except.ok line :: rest) = none := by
  simp only [process_zsh_history, h]
  rw [if_pos hcut, if_pos hp]

theorem process_ok_accept (now cutoff t : Int) (ec cmd line : List Char)
    (rest : List (Except Unit (List Char)))
    (h : parse_zsh_history line = some (t, ec, cmd)) (hcut : cutoff ≤ t)
    (hp : ¬ (now - t < 0 ∨ chronoMaxSecs < now - t)) :
    process_zsh_history now cutoff (Except.ok line :: rest)
      = Option.map (fun tl => CommandRecord.mk t ec cmd :: tl)
          (process_zsh_history now cutoff rest) := by
  simp only [process_zsh_history, h]
  rw [if_pos hcut, if_neg hp]

theorem process_prefix_ok (now cutoff : Int) :
    ∀ (pre : List (List Char)) (tail : List (Except Unit (List Char))),
      (∀ l ∈ pre, (parse_zsh_history l).isSome) →
      (∀ l ∈ pre, ∀ t ec cmd, parse_zsh_history l = some (t, ec, cmd) →
        cutoff ≤ t → 0 ≤ now - t ∧ now - t ≤ chronoMaxSecs) →
      process_zsh_history now cutoff (pre.map Except.ok ++ tail)
        = Option.map (fun suffix => windowRecords cutoff pre ++ suffix)
            (process_zsh_history now cutoff tail) := by
  intro pre
  induction pre with
  | nil =>
    intro tail _ _
    cases h : process_zsh_history now cutoff tail <;> simp [windowRecords, h]
  | cons l pre ih =>
    intro tail hpre hnow
    obtain ⟨r, hr⟩ := Option.isSome_iff_exists.mp (hpre l (List.mem_cons_self l pre))
    obtain ⟨t, ec, cmd⟩ := r
    have hpre2 : ∀ x ∈ pre, (parse_zsh_history x).isSome :=
      fun x hx => hpre x (List.mem_cons_of_mem _ hx)
    have hnow2 : ∀ x ∈ pre, ∀ t ec cmd, parse_zsh_history x = some (t, ec, cmd) →
        cutoff ≤ t → 0 ≤ now - t ∧ now - t ≤ chronoMaxSecs :=
      fun x hx => hnow x (List.mem_cons_of_mem _ hx)
    by_cases hcut : cutoff ≤ t
    · obtain ⟨h1, h2⟩ := hnow l (List.mem_cons_self l pre) t ec cmd hr hcut
      have hnp : ¬ (now - t < 0 ∨ chronoMaxSecs < now - t) := by omega
      rw [List.map_cons, List.cons_append,
        process_ok_accept now cutoff t ec cmd l _ hr hcut hnp, ih tail hpre2 hnow2]
      cases h : process_zsh_history now cutoff tail <;>
        simp [windowRecords, List.filterMap_cons, hr, hcut, toRecord]
    · rw [List.map_cons, List.cons_append,
        process_ok_skip now cutoff t ec cmd l _ hr hcut, ih tail hpre2 hnow2]
      cases h : process_zsh_history now cutoff tail <;>
        simp [windowRecords, List.filterMap_cons, hr, hcut]

theorem process_sound (now cutoff : Int) :
    ∀ (lines : List (Except Unit (List Char))) (out : List CommandRecord),
      process_zsh_history now cutoff lines = some out →
      ∀ r ∈ out, cutoff ≤ r.timestamp ∧
        ∃ line, Except.ok line ∈ lines ∧
          parse_zsh_history line = some (r.timestamp, r.exit_code, r.command) := by
  intro lines
  induction lines with
  | nil =>
    intro out h r hr
    rw [process_nil] at h
    cases h
    cases hr
  | cons x rest ih =>
    intro out h r hr
    cases x with
    | error e =>
      rw [process_err] at h
      obtain ⟨hc, line, hmem, hpl⟩ := ih out h r hr
      exact ⟨hc, line, List.mem_cons_of_mem _ hmem, hpl⟩
    | ok line =>
      cases hp : parse_zsh_history line with
      | none =>
        rw [process_ok_reject now cutoff line rest hp] at h
        cases h
        cases hr
      | some tr =>
        obtain ⟨t, ec, cmd⟩ := tr
        by_cases hcut : cutoff ≤ t
        · by_cases hpanic : now - t < 0 ∨ chronoMaxSecs < now - t
          · rw [process_ok_panic now cutoff t ec cmd line rest hp hcut hpanic] at h
            cases h
          · rw [process_ok_accept now cutoff t ec cmd line rest hp hcut hpanic] at h
            obtain ⟨tl, htl, hout⟩ := Option.map_eq_some'.mp h
            subst hout
            rcases List.mem_cons.mp hr with hr1 | hr2
            · subst hr1
              exact ⟨hcut, line, List.mem_cons_self _ _, hp⟩
            · obtain ⟨hc, l2, hmem, hpl⟩ := ih tl htl r hr2
              exact ⟨hc, l2, List.mem_cons_of_mem _ hmem, hpl⟩
        · rw [process_ok_skip now cutoff t ec cmd line rest hp hcut] at h
          obtain ⟨hc, l2, hmem, hpl⟩ := ih out h r hr
          exact ⟨hc, l2, List.mem_cons_of_mem _ hmem, hpl⟩

theorem splitFirst_eq_contains (sep : Char) :
    ∀ l : List Char,
      splitFirst sep l =
        if l.contains sep then
          some (l.takeWhile (fun c => c != sep), (l.dropWhile (fun c => c != sep)).tail)
        else none := by
  intro l
  induction l with
  | nil => rfl
  | cons c rest ih =>
    simp only [splitFirst]
    by_cases hc : c = sep
    · subst hc
      simp [List.contains_cons, List.takeWhile_cons, List.dropWhile_cons]
    · rw [if_neg hc, ih]
      have hbne : (c != sep) = true := by simp [hc]
      have hcs : ¬ sep = c := fun h => hc h.symm
      by_cases hr : sep ∈ rest
      · simp [List.contains_cons, hr, hbne, List.takeWhile_cons, List.dropWhile_cons]
      · simp [List.contains_cons, hr, hcs]

theorem env_keys_filterMap :
    ∀ lines : List (List Char),
      get_env_file_keys lines
        = lines.filterMap (fun l => Option.map (fun p => trim p.1) (splitFirst '=' l)) := by
  intro lines
  induction lines with
  | nil => rfl
  | cons l rest ih =>
    cases h : splitFirst '=' l with
    | none => simp [get_env_file_keys, h, ih]
    | some p =>
      obtain ⟨k, v⟩ := p
      simp [get_env_file_keys, h, ih]

theorem findSrcLoop_length (extension : String) (max_files : Nat) :
    ∀ (entries : List SrcFile) (acc : List String), acc.length < max_files →
      (findSrcLoop extension max_files entries acc).length
        = min (acc.length
            + (entries.filter (fun e => decide (e.ext = some extension))).length)
            max_files := by
  intro entries
  induction entries with
  | nil =>
    intro acc hacc
    simp [findSrcLoop]
    omega
  | cons e rest ih =>
    intro acc hacc
    by_cases he : e.ext = some extension
    · by_cases hstop : (acc ++ [e.name]).length ≥ max_files
      · simp only [findSrcLoop, if_pos he, if_pos hstop]
        simp only [List.length_append, List.length_cons, List.length_nil] at hstop ⊢
        simp [List.filter_cons, he]
        omega
      · simp only [findSrcLoop, if_pos he, if_neg hstop]
        rw [ih (acc ++ [e.name])
          (by simp only [List.length_append, List.length_cons, List.length_nil]
                at hstop ⊢
              omega)]
        simp [List.filter_cons, he]
        omega
    · simp only [findSrcLoop, if_neg he]
      rw [ih acc hacc]
      simp [List.filter_cons, he]

theorem mem_findSrcLoop (extension : String) (max_files : Nat) :
    ∀ (entries : List SrcFile) (acc : List String) (nm : String),
      nm ∈ findSrcLoop extension max_files entries acc →
      nm ∈ acc ∨ ∃ e ∈ entries, e.name = nm ∧ e.ext = some extension := by
  intro entries
  induction entries with
  | nil =>
    intro acc nm h
    exact Or.inl h
  | cons e rest ih =>
    intro acc nm h
    by_cases he : e.ext = some extension
    · by_cases hstop : (acc ++ [e.name]).length ≥ max_files
      · simp only [findSrcLoop, if_pos he, if_pos hstop] at h
        rcases List.mem_append.mp h with h1 | h2
        · exact Or.inl h1
        · exact Or.inr ⟨e, List.mem_cons_self e rest, (List.mem_singleton.mp h2).symm, he⟩
      · simp only [findSrcLoop, if_pos he, if_neg hstop] at h
        rcases ih (acc ++ [e.name]) nm h with h1 | h2
        · rcases List.mem_append.mp h1 with h3 | h4
          · exact Or.inl h3
          · exact Or.inr ⟨e, List.mem_cons_self e rest, (List.mem_singleton.mp h4).symm, he⟩
        · obtain ⟨x, hx, hxn, hxe⟩ := h2
          exact Or.inr ⟨x, List.mem_cons_of_mem _ hx, hxn, hxe⟩
    · simp only [findSrcLoop, if_neg he] at h
      rcases ih acc nm h with h1 | h2
      · exact Or.inl h1
      · obtain ⟨x, hx, hxn, hxe⟩ := h2
        exact Or.inr ⟨x, List.mem_cons_of_mem _ hx, hxn, hxe⟩

theorem find_source_files_length (entries : List SrcFile) (extension : String)
    (max_files : Nat) (hmax : 1 ≤ max_files) :
    (find_source_files (some entries) extension max_files).length
      = min (entries.filter (fun e => decide (e.ext = some extension))).length
          max_files := by
  have h := findSrcLoop_length extension max_files entries []
    (by simp only [List.length_nil]; omega)
  simpa [find_source_files] using h

/-! ### Claims -/

/-- C2: `parse_zsh_history` accepts exactly the lines of the form
`:<ts>:<f>;<cmd>` — sentinel `:` first, the segment between the first two
colons an integer after trimming, a `;` after the second colon — returning the
timestamp with the trimmed second field and trimmed command, and rejects every
other line; stated as extensional equality with the specification-worded
parser `parse_zsh_spec`. -/
theorem c2_parse_characterization (entry : List Char) :
    parse_zsh_history entry = parse_zsh_spec entry := by
  cases entry with
  | nil => rfl
  | cons c rest =>
    by_cases hc : c = ':'
    · subst hc
      simp only [parse_zsh_history, parse_zsh_spec, List.head?_cons, List.tail_cons,
        splitn_three, splitFirst_cons_self, if_pos]
      cases hsf : splitFirst ':' rest with
      | none => simp [splitn_two, hsf]
      | some p =>
        obtain ⟨a, b⟩ := p
        simp only [splitn_two, hsf]
        cases hts : parseI64 (trim a) with
        | none => simp [hts]
        | some t =>
          simp only [hts]
          cases hsemi : splitFirst ';' b with
          | none => simp [splitn_two, hsemi]
          | some q =>
            obtain ⟨x, y⟩ := q
            simp [splitn_two, hsemi]
    · simp [parse_zsh_history, parse_zsh_spec, hc]

/-- C1: on a reverse-ordered history in which the N-th line is the first line
the parser rejects, `process_zsh_history` returns exactly the records built
from the lines before it that meet the cutoff, in scan order, and no line
after the rejected one contributes. -/
theorem c1_stop_at_first_rejected_line (now cutoff : Int)
    (pre : List (List Char)) (bad : List Char)
    (post : List (Except Unit (List Char)))
    (hpre : ∀ l ∈ pre, (parse_zsh_history l).isSome)
    (hbad : parse_zsh_history bad = none)
    (hnow : ∀ l ∈ pre, ∀ t ec cmd, parse_zsh_history l = some (t, ec, cmd) →
      cutoff ≤ t → 0 ≤ now - t ∧ now - t ≤ chronoMaxSecs) :
    process_zsh_history now cutoff (pre.map Except.ok ++ Except.ok bad :: post)
      = some (windowRecords cutoff pre) := by
  rw [process_prefix_ok now cutoff pre (Except.ok bad :: post) hpre hnow,
    process_ok_reject now cutoff bad post hbad]
  simp

/-- Witness for C1 at a concrete input: two parseable lines (one below the
cutoff), then a rejected line, then a decode error that is never reached. -/
theorem c1_witness :
    process_zsh_history 10 5
      [Except.ok (s2l ":9:0;a"), Except.ok (s2l ":3:0;b"),
       Except.ok (s2l "oops"), Except.error ()]
      = some [⟨9, s2l "0", s2l "a"⟩] :=
  c1_stop_at_first_rejected_line 10 5 [s2l ":9:0;a", s2l ":3:0;b"] (s2l "oops")
    [Except.error ()] (by decide) (by decide)
    (by
      intro l hl t ec cmd hp hcut
      rcases List.mem_cons.mp hl with rfl | hl2
      · rw [show parse_zsh_history (s2l ":9:0;a")
            = some ((9 : Int), s2l "0", s2l "a") from by decide] at hp
        cases hp
        exact ⟨by decide, by decide⟩
      · rcases List.mem_cons.mp hl2 with rfl | hl3
        · rw [show parse_zsh_history (s2l ":3:0;b")
              = some ((3 : Int), s2l "0", s2l "b") from by decide] at hp
          cases hp
          exact ⟨by decide, by decide⟩
        · cases hl3)

/-- C3: the cutoff is inclusive — a parsed line whose timestamp equals the
cutoff produces its record at the head of the remaining scan — and every
record in a returned scan comes from a well-formed line whose timestamp meets
the cutoff. -/
theorem c3_cutoff_inclusive :
    (∀ (now cutoff : Int) (line ec cmd : List Char)
        (rest : List (Except Unit (List Char))),
      parse_zsh_history line = some (cutoff, ec, cmd) →
      0 ≤ now - cutoff → now - cutoff ≤ chronoMaxSecs →
      process_zsh_history now cutoff (Except.ok line :: rest)
        = Option.map (fun tl => CommandRecord.mk cutoff ec cmd :: tl)
            (process_zsh_history now cutoff rest))
    ∧ ∀ (now cutoff : Int) (lines : List (Except Unit (List Char)))
        (out : List CommandRecord),
      process_zsh_history now cutoff lines = some out →
      ∀ r ∈ out, cutoff ≤ r.timestamp ∧
        ∃ line, Except.ok line ∈ lines ∧
          parse_zsh_history line = some (r.timestamp, r.exit_code, r.command) := by
  constructor
  · intro now cutoff line ec cmd rest h h1 h2
    exact process_ok_accept now cutoff cutoff ec cmd line rest h le_rfl (by omega)
  · intro now cutoff lines out h
    exact process_sound now cutoff lines out h

/-- Witness for C3: a line whose timestamp equals the cutoff is included. -/
theorem c3_witness :
    process_zsh_history 7 7 [Except.ok (s2l ":7:0;ls")]
      = Option.map (fun tl => CommandRecord.mk 7 (s2l "0") (s2l "ls") :: tl)
          (process_zsh_history 7 7 []) :=
  c3_cutoff_inclusive.1 7 7 (s2l ":7:0;ls") (s2l "0") (s2l "ls") []
    (by decide) (by decide) (by decide)

/-- C4: contrary to the claim, `max_files = 0` does not yield the marker file
alone: the cap is checked only after a push, so the first matching source file
is returned as well. -/
theorem c4_max_files_zero_returns_a_source_file :
    find_project_files
      { hasCargoToml := true, hasPyprojectToml := false, hasPackageJson := false,
        hasGoMod := false, srcDir := some [⟨"src/main.rs", some "rs"⟩],
        rootDir := some [] } 0
      = ["Cargo.toml", "src/main.rs"] := by decide

/-- C5: a directory with five matching-extension files sampled with
`max_files = 3` yields exactly three paths, and each ecosystem's marker file is
in the result whenever it exists, for every cap value. -/
theorem c5_cap_of_three_and_marker_always_included :
    (∀ (entries : List SrcFile) (extension : String),
      (entries.filter (fun e => decide (e.ext = some extension))).length = 5 →
      (find_source_files (some entries) extension 3).length = 3)
    ∧ ∀ (cwd : Cwd) (max_files : Nat),
      (cwd.hasCargoToml = true → "Cargo.toml" ∈ find_project_files cwd max_files)
      ∧ (cwd.hasPyprojectToml = true →
          "pyproject.toml" ∈ find_project_files cwd max_files)
      ∧ (cwd.hasPackageJson = true →
          "package.json" ∈ find_project_files cwd max_files)
      ∧ (cwd.hasGoMod = true → "go.mod" ∈ find_project_files cwd max_files) := by
  constructor
  · intro entries extension h5
    rw [find_source_files_length entries extension 3 (by omega), h5]
    decide
  · intro cwd max_files
    refine ⟨fun h => ?_, fun h => ?_, fun h => ?_, fun h => ?_⟩ <;>
      simp [find_project_files, h]

/-- Witness for C5 at a concrete five-file listing and a concrete working
directory with the cap set to zero. -/
theorem c5_witness :
    (find_source_files (some ex5) "rs" 3).length = 3
    ∧ "Cargo.toml" ∈ find_project_files exCwd 0 :=
  ⟨c5_cap_of_three_and_marker_always_included.1 ex5 "rs" (by decide),
   (c5_cap_of_three_and_marker_always_included.2 exCwd 0).1 rfl⟩

/-- C6: the result is the concatenation, in marker-check order, of each
detected ecosystem's marker followed by its own per-extension samples; every
sampled path comes from an entry carrying exactly the sampled extension (no
cross-contamination); and the cap bounds each extension lookup independently. -/
theorem c6_polyglot_markers_and_independent_caps :
    (∀ (cwd : Cwd) (max_files : Nat),
      find_project_files cwd max_files =
        (if cwd.hasCargoToml then
          "Cargo.toml" :: find_source_files cwd.srcDir "rs" max_files
        else [])
        ++ (if cwd.hasPyprojectToml then
          "pyproject.toml" :: find_source_files cwd.srcDir "py" max_files
        else [])
        ++ (if cwd.hasPackageJson then
          "package.json" :: (find_source_files cwd.srcDir "js" max_files
            ++ find_source_files cwd.srcDir "ts" max_files)
        else [])
        ++ (if cwd.hasGoMod then
          "go.mod" :: find_source_files cwd.rootDir "go" max_files
        else []))
    ∧ (∀ (entries : List SrcFile) (extension nm : String) (max_files : Nat),
      nm ∈ find_source_files (some entries) extension max_files →
      ∃ e ∈ entries, e.name = nm ∧ e.ext = some extension)
    ∧ ∀ (dir : Option (List SrcFile)) (extension : String) (max_files : Nat),
      1 ≤ max_files →
      (find_source_files dir extension max_files).length ≤ max_files := by
  refine ⟨fun _ _ => rfl, ?_, ?_⟩
  · intro entries extension nm max_files h
    rcases mem_findSrcLoop extension max_files entries [] nm h with h1 | h2
    · cases h1
    · exact h2
  · intro dir extension max_files hmax
    cases dir with
    | none => simp [find_source_files]
    | some entries =>
      rw [find_source_files_length entries extension max_files hmax]
      exact min_le_right _ _

/-- Witness for C6 at a concrete listing: a sampled path traces back to a
matching-extension entry, and the sample length respects the cap. -/
theorem c6_witness :
    (∃ e ∈ ex5, e.name = "src/a.rs" ∧ e.ext = some "rs")
    ∧ (find_source_files (some ex5) "rs" 3).length ≤ 3 :=
  ⟨c6_polyglot_markers_and_independent_caps.2.1 ex5 "rs" "src/a.rs" 3 (by decide),
   c6_polyglot_markers_and_independent_caps.2.2 (some ex5) "rs" 3 (by decide)⟩

/-- C7: on the file content `A=1\nFOO=bar=baz\n# comment\nNOVALUE\n` the key
extractor returns exactly `["A", "FOO"]`, and in general it returns, in file
order, the trimmed text before the first `=` of every line containing `=`,
ignoring lines without `=`. -/
theorem c7_env_key_extraction :
    get_env_file_keys (linesOf (s2l "A=1\nFOO=bar=baz\n# comment\nNOVALUE\n"))
      = [s2l "A", s2l "FOO"]
    ∧ ∀ lines : List (List Char),
      get_env_file_keys lines
        = lines.filterMap
            (fun l => Option.map (fun p => trim p.1) (splitFirst '=' l)) :=
  ⟨by decide, env_keys_filterMap⟩

/-- C8: a decode-failure line is transparent to the scan — deleting it from
the input never changes the result, so it neither stops the scan nor
contributes a record, wherever it occurs. -/
theorem c8_decode_failure_skipped (now cutoff : Int) :
    ∀ (pre post : List (Except Unit (List Char))),
      process_zsh_history now cutoff (pre ++ Except.error () :: post)
        = process_zsh_history now cutoff (pre ++ post) := by
  intro pre
  induction pre with
  | nil =>
    intro post
    simp only [List.nil_append]
    rw [process_err]
  | cons x pre ih =>
    intro post
    cases x with
    | error e =>
      rw [List.cons_append, List.cons_append, process_err, process_err, ih]
    | ok line =>
      cases hp : parse_zsh_history line with
      | none =>
        rw [List.cons_append, List.cons_append,
          process_ok_reject now cutoff line _ hp,
          process_ok_reject now cutoff line _ hp]
      | some tr =>
        obtain ⟨t, ec, cmd⟩ := tr
        by_cases hcut : cutoff ≤ t
        · by_cases hpanic : now - t < 0 ∨ chronoMaxSecs < now - t
          · rw [List.cons_append, List.cons_append,
              process_ok_panic now cutoff t ec cmd line _ hp hcut hpanic,
              process_ok_panic now cutoff t ec cmd line _ hp hcut hpanic]
          · rw [List.cons_append, List.cons_append,
              process_ok_accept now cutoff t ec cmd line _ hp hcut hpanic,
              process_ok_accept now cutoff t ec cmd line _ hp hcut hpanic, ih]
        · rw [List.cons_append, List.cons_append,
            process_ok_skip now cutoff t ec cmd line _ hp hcut,
            process_ok_skip now cutoff t ec cmd line _ hp hcut, ih]

/-- C9 counterexample: an input that contains a well-formed line with an
in-window, strictly-future timestamp on which the scan does not abort — the
line sits after a rejected line, so the scan stops first and returns
normally. -/
theorem c9_counterexample :
    parse_zsh_history (s2l ":5:0;ls") = some (5, s2l "0", s2l "ls")
    ∧ (0 : Int) ≤ 5 ∧ (0 : Int) < 5
    ∧ Except.ok (s2l ":5:0;ls")
        ∈ ([Except.ok (s2l "garbage"), Except.ok (s2l ":5:0;ls")]
            : List (Except Unit (List Char)))
    ∧ process_zsh_history 0 0
        [Except.ok (s2l "garbage"), Except.ok (s2l ":5:0;ls")] = some [] :=
  ⟨by decide, by decide, by decide,
   List.mem_cons_of_mem _ (List.mem_cons_self _ _), by decide⟩

/-- C9 (amended): the scan aborts (the negative-duration `unwrap` panics) on
any input in which a well-formed line with timestamp ≥ cutoff and strictly
greater than the current time is reached, i.e. every earlier decodable line
parses successfully. -/
theorem c9_reached_future_timestamp_aborts (now cutoff t : Int)
    (ec cmd l : List Char) (post : List (Except Unit (List Char))) :
    ∀ pre : List (List Char),
      (∀ p ∈ pre, (parse_zsh_history p).isSome) →
      parse_zsh_history l = some (t, ec, cmd) →
      cutoff ≤ t → now < t →
      process_zsh_history now cutoff (pre.map Except.ok ++ Except.ok l :: post)
        = none := by
  intro pre
  induction pre with
  | nil =>
    intro _ hl hwin hfut
    simp only [List.map_nil, List.nil_append]
    exact process_ok_panic now cutoff t ec cmd l post hl hwin (Or.inl (by omega))
  | cons p pre ih =>
    intro hpre hl hwin hfut
    obtain ⟨r, hr⟩ := Option.isSome_iff_exists.mp (hpre p (List.mem_cons_self p pre))
    obtain ⟨t2, e2, c2⟩ := r
    have hpre2 : ∀ x ∈ pre, (parse_zsh_history x).isSome :=
      fun x hx => hpre x (List.mem_cons_of_mem _ hx)
    rw [List.map_cons, List.cons_append]
    by_cases hcut : cutoff ≤ t2
    · by_cases hpanic : now - t2 < 0 ∨ chronoMaxSecs < now - t2
      · exact process_ok_panic now cutoff t2 e2 c2 p _ hr hcut hpanic
      · rw [process_ok_accept now cutoff t2 e2 c2 p _ hr hcut hpanic,
          ih hpre2 hl hwin hfut]
        rfl
    · rw [process_ok_skip now cutoff t2 e2 c2 p _ hr hcut]
      exact ih hpre2 hl hwin hfut

/-- Witness for the amended C9: a future-timestamped first line aborts the
scan. -/
theorem c9_witness :
    process_zsh_history 0 0 [Except.ok (s2l ":5:0;ls")] = none :=
  c9_reached_future_timestamp_aborts 0 0 5 (s2l "0") (s2l "ls") (s2l ":5:0;ls")
    [] [] (by decide) (by decide) (by decide) (by decide)

/-- C10: the key extractor has no comment syntax — every line containing `=`,
comment-looking or not, contributes the trimmed text before its first `=`, and
only lines without `=` are ignored; in particular `# KEY=1` yields the key
`# KEY`. -/
theorem c10_no_comment_syntax :
    (∀ lines : List (List Char),
      get_env_file_keys lines
        = (lines.filter (fun l => l.contains '=')).map
            (fun l => trim (l.takeWhile (fun c => c != '='))))
    ∧ get_env_file_keys [s2l "# KEY=1"] = [s2l "# KEY"] := by
  constructor
  · intro lines
    induction lines with
    | nil => rfl
    | cons l rest ih =>
      by_cases h : '=' ∈ l
      · simp only [get_env_file_keys, splitFirst_eq_contains '=' l]
        simp [List.filter_cons, h, ih]
      · simp only [get_env_file_keys, splitFirst_eq_contains '=' l]
        simp [List.filter_cons, h, ih]
  · decide

end MagicQuickstart
